import Mathlib

/-!
Verification of the storage-engine abstraction layer of Caoming/tikv
(src/storage/engine/mod.rs and src/util/worker/metrics.rs), embedded
shallowly: byte strings are lists of naturals compared lexicographically,
fallible operations return Except, and the missing backend modules
(memory.rs, rocksdb.rs) are modelled from the specification.
-/

set_option maxHeartbeats 1000000

namespace TikvEngine

/-- Byte strings (keys and values): sequences of byte values, compared by
the lexicographic order on lists, which matches byte-value order. -/
abbrev Bytes := List Nat

/-- A backend-specific error value, as seen through the standard
error-reporting surface of Rust: a display message, a description and an
optional causing error (mirrors the capabilities of
Box<error::Error + Send + Sync>). -/
inductive BackendError : Type where
  | mk : String → String → Option BackendError → BackendError

/-- The display message of a backend error (Display::fmt output). -/
def BackendError.display : BackendError → String
  | .mk d _ _ => d

/-- The description of a backend error (error::Error::description). -/
def BackendError.description : BackendError → String
  | .mk _ d _ => d

/-- The optional causing error of a backend error (error::Error::cause). -/
def BackendError.cause : BackendError → Option BackendError
  | .mk _ _ c => c

/-- The cause-chain traversal of a backend error: its own display message
followed by the messages of its transitive causes, as a caller walking
cause() links and printing each error would observe. -/
def BackendError.traverse : BackendError → List String
  | .mk d _ none => [d]
  | .mk d _ (some c) => d :: c.traverse

/-- The Error type of src/storage/engine/mod.rs: a single variant Other
wrapping a boxed backend error. -/
inductive Error : Type where
  | Other : BackendError → Error

/-- impl Display for Error: Display::fmt delegates to the wrapped error. -/
def Error.fmt : Error → String
  | .Other e => e.display

/-- impl error::Error for Error: description delegates to the wrapped
error's description. -/
def Error.description : Error → String
  | .Other e => e.description

/-- impl error::Error for Error: cause returns the wrapped error's own
cause, not the wrapped error itself. -/
def Error.cause : Error → Option BackendError
  | .Other e => e.cause

/-- The cause-chain traversal observed through the envelope: its display
output followed by the messages of the chain starting at its cause() link. -/
def Error.traverse : Error → List String
  | err => err.fmt :: (match err.cause with
      | none => []
      | some c => c.traverse)

/-- The Modify enum of src/storage/engine/mod.rs: a mutation descriptor,
either Delete(key) or Put((key, value)). Put carries a pair, as in the
source. -/
inductive Modify : Type where
  | Delete : Bytes → Modify
  | Put : Bytes × Bytes → Modify

/-- The key a mutation descriptor targets. -/
def Modify.key : Modify → Bytes
  | .Delete k => k
  | .Put (k, _) => k

/-- Modelled from the spec: the In-Memory Backend (EngineBtree of the
absent src/storage/engine/memory.rs), an ordered associative structure
over keys. Embedded as an association list kept strictly sorted by the
lexicographic byte order on keys. -/
abbrev EngineBtree : Type := List (Bytes × Bytes)

/-- Modelled from the spec: EngineBtree::new, the empty ordered map. -/
def EngineBtree.new : EngineBtree := []

/-- Modelled from the spec: applying Put as upsert into the ordered
structure, keeping keys strictly sorted and without duplicates. -/
def btInsert : EngineBtree → Bytes → Bytes → EngineBtree
  | [], k, v => [(k, v)]
  | (k0, v0) :: rest, k, v =>
    if k < k0 then (k, v) :: (k0, v0) :: rest
    else if k = k0 then (k, v) :: rest
    else (k0, v0) :: btInsert rest k v

/-- Modelled from the spec: applying Delete as removal-if-present;
removal of an absent key leaves the structure unchanged. -/
def btErase : EngineBtree → Bytes → EngineBtree
  | [], _ => []
  | (k0, v0) :: rest, k => if k = k0 then rest else (k0, v0) :: btErase rest k

/-- Modelled from the spec: exact-key point lookup in the ordered
structure. -/
def btGet : EngineBtree → Bytes → Option Bytes
  | [], _ => none
  | (k0, v0) :: rest, k => if k = k0 then some v0 else btGet rest k

/-- Modelled from the spec: first-key-not-less-than lookup; on the sorted
list this is the first entry whose key is ≥ the probe. -/
def btSeek : EngineBtree → Bytes → Option (Bytes × Bytes)
  | [], _ => none
  | (k0, v0) :: rest, k => if k ≤ k0 then some (k0, v0) else btSeek rest k

/-- Modelled from the spec: one mutation descriptor applied to the
ordered structure (Put as upsert, Delete as removal-if-present). -/
def btApply (s : EngineBtree) : Modify → EngineBtree
  | .Put (k, v) => btInsert s k v
  | .Delete k => btErase s k

/-- Modelled from the spec: EngineBtree::write iterates the batch in
sequence order, applying each descriptor in turn. -/
def btWrite (s : EngineBtree) (batch : List Modify) : EngineBtree :=
  batch.foldl btApply s

/-- Well-formedness of the ordered structure: keys strictly increasing in
lexicographic byte order (hence no duplicate keys). -/
abbrev BtSorted (s : EngineBtree) : Prop :=
  s.Pairwise (fun a b => a.1 < b.1)

/-- Engine::get for the in-memory backend: a total lookup wrapped in the
trait's Result type; this backend never produces an error. -/
def EngineBtree.get (s : EngineBtree) (key : Bytes) :
    Except Error (Option Bytes) :=
  Except.ok (btGet s key)

/-- Engine::seek for the in-memory backend: nearest-at-or-after lookup
wrapped in the trait's Result type; this backend never produces an error. -/
def EngineBtree.seek (s : EngineBtree) (key : Bytes) :
    Except Error (Option (Bytes × Bytes)) :=
  Except.ok (btSeek s key)

/-- Engine::write for the in-memory backend: the batch applied in
sequence order, wrapped in the trait's Result type. -/
def EngineBtree.write (s : EngineBtree) (batch : List Modify) :
    Except Error EngineBtree :=
  Except.ok (btWrite s batch)

/-- The Engine trait of src/storage/engine/mod.rs, as a record of the
three required operations over a backend state type σ. get and seek take
the receiver by shared reference, so they consume the state and return
only a result; write takes it by mutable reference, modelled as returning
the successor state. -/
structure EngineOps (σ : Type) : Type where
  get : σ → Bytes → Except Error (Option Bytes)
  seek : σ → Bytes → Except Error (Option (Bytes × Bytes))
  write : σ → List Modify → Except Error σ

/-- The trait's default method put: builds the single-element batch
[Put((key, value))] and delegates to write, returning its result. -/
def EngineOps.put (E : EngineOps σ) (s : σ) (key value : Bytes) :
    Except Error σ :=
  E.write s [Modify.Put (key, value)]

/-- The trait's default method delete: builds the single-element batch
[Delete(key)] and delegates to write, returning its result. -/
def EngineOps.delete (E : EngineOps σ) (s : σ) (key : Bytes) :
    Except Error σ :=
  E.write s [Modify.Delete key]

/-- The in-memory backend packaged as an implementation of the Engine
trait record. -/
def memEngine : EngineOps EngineBtree where
  get := EngineBtree.get
  seek := EngineBtree.seek
  write := EngineBtree.write

/-- The Dsn enum of src/storage/engine/mod.rs: the backend selector,
either Memory or RocksDBPath(path). -/
inductive Dsn : Type where
  | Memory : Dsn
  | RocksDBPath : String → Dsn

/-- The persistent backend handle (EngineRocksdb of the absent
src/storage/engine/rocksdb.rs): an open handle bound to one filesystem
path. Only the path is observable at this layer. -/
structure EngineRocksdb : Type where
  path : String

/-- The boxed trait object returned by new_engine: one of the two
backend instances, erased behind the Engine contract. -/
inductive BoxedEngine : Type where
  | btree : EngineBtree → BoxedEngine
  | rocks : EngineRocksdb → BoxedEngine

/-- new_engine of src/storage/engine/mod.rs: Dsn::Memory constructs the
in-memory backend directly inside Ok; Dsn::RocksDBPath(path) calls
EngineRocksdb::new(path) and maps its result into a boxed engine. The
constructor of the absent rocksdb module is passed as a parameter. -/
def new_engine (rocksNew : String → Except Error EngineRocksdb) :
    Dsn → Except Error BoxedEngine
  | .Memory => Except.ok (BoxedEngine.btree EngineBtree.new)
  | .RocksDBPath path => (rocksNew path).map BoxedEngine.rocks

/-- A registered prometheus gauge vector, as observable from
src/util/worker/metrics.rs: its name, help text and label names. -/
structure GaugeVec : Type where
  name : String
  help : String
  labels : List String

/-- The outcome of forcing a lazy_static initializer: either the
initialized value, or a panic raised during initialization. -/
inductive InitResult (α : Type) : Type where
  | value : α → InitResult α
  | panicked : InitResult α

/-- Result::unwrap as used by the PENDING_TASKS initializer: the Ok value,
or a panic when the result is an Err. -/
def unwrapInit : Except Error α → InitResult α
  | .ok a => .value a
  | .error _ => .panicked

/-- The PENDING_TASKS lazy static of src/util/worker/metrics.rs: the
result of register_gauge_vec!("tikv_worker_pending_task_total",
"Pending task count of a worker.", &["name"]), unwrapped. The registry's
registration function (from the external prometheus crate) is passed as a
parameter. -/
def PENDING_TASKS
    (register : String → String → List String → Except Error GaugeVec) :
    InitResult GaugeVec :=
  unwrapInit
    (register "tikv_worker_pending_task_total"
      "Pending task count of a worker." ["name"])

/-- The most recent mutation descriptor of a batch targeting a given key:
the descriptor latest in sequence order whose key equals k, if any. -/
def lastTouch (k : Bytes) : List Modify → Option Modify
  | [] => none
  | m :: rest =>
    match lastTouch k rest with
    | some m0 => some m0
    | none => if m.key = k then some m else none

/-- The reference associative map of the spec's round-trip property,
written from the spec's words (to be compared with the backends): a plain
key-to-optional-value mapping with Put as insert/overwrite and Delete as
remove. -/
def RefMap : Type := Bytes → Option Bytes

/-- The empty reference map. -/
def RefMap.empty : RefMap := fun _ => none

/-- Insert/overwrite in the reference map. -/
def RefMap.insert (m : RefMap) (k v : Bytes) : RefMap :=
  fun q => if q = k then some v else m q

/-- Removal in the reference map. -/
def RefMap.remove (m : RefMap) (k : Bytes) : RefMap :=
  fun q => if q = k then none else m q

/-- One mutation descriptor folded over the reference map. -/
def refApply (m : RefMap) : Modify → RefMap
  | .Put (k, v) => m.insert k v
  | .Delete k => m.remove k

/-- One batch folded over the reference map, in sequence order. -/
def refWrite (m : RefMap) (batch : List Modify) : RefMap :=
  batch.foldl refApply m

/-- A sequence of batches folded over the reference map. -/
def refWriteAll (m : RefMap) (batches : List (List Modify)) : RefMap :=
  batches.foldl refWrite m

/-- A sequence of batches applied to the in-memory backend via write. -/
def btWriteAll (s : EngineBtree) (batches : List (List Modify)) :
    EngineBtree :=
  batches.foldl btWrite s

/-- Modelled from the spec: the observable key-to-value store of the
persistent backend (the absent src/storage/engine/rocksdb.rs delegates to
the wrapped library's native get and batch-write primitives; the library
store maps keys to optional values). -/
def RocksStore : Type := Bytes → Option Bytes

/-- Modelled from the spec: a freshly opened persistent store holds no
keys. -/
def RocksStore.fresh : RocksStore := fun _ => none

/-- Modelled from the spec: the library's native point read, delegated to
by the adapter's get. -/
def rocksGet (db : RocksStore) (k : Bytes) : Option Bytes := db k

/-- Modelled from the spec: one descriptor of a native write batch, a
put-or-delete record applied to the store. -/
def rocksApply (db : RocksStore) : Modify → RocksStore
  | .Put (k, v) => fun q => if q = k then some v else db q
  | .Delete k => fun q => if q = k then none else db q

/-- Modelled from the spec: the library's native batch write, applying
the descriptors in sequence order, delegated to by the adapter's write. -/
def rocksWrite (db : RocksStore) (batch : List Modify) : RocksStore :=
  batch.foldl rocksApply db

/-- A sequence of batches applied to the persistent backend via write. -/
def rocksWriteAll (db : RocksStore) (batches : List (List Modify)) :
    RocksStore :=
  batches.foldl rocksWrite db

/-- The operations of the Engine trait as reified commands, for stating
which of them may mutate engine state. -/
inductive Op : Type where
  | getOp : Bytes → Op
  | seekOp : Bytes → Op
  | writeOp : List Modify → Op

/-- The value an operation returns to the caller. -/
inductive OpOutput : Type where
  | gotValue : Except Error (Option Bytes) → OpOutput
  | gotPair : Except Error (Option (Bytes × Bytes)) → OpOutput
  | wrote : Except Error Unit → OpOutput

/-- The in-memory engine as a state machine over the trait's operations.
get and seek take the receiver by shared reference (&self), so the state
they leave behind is the incoming state; write takes the receiver by
mutable reference (&mut self) and leaves the updated state. -/
def stepMem (s : EngineBtree) : Op → EngineBtree × OpOutput
  | .getOp k => (s, .gotValue (EngineBtree.get s k))
  | .seekOp k => (s, .gotPair (EngineBtree.seek s k))
  | .writeOp b => (btWrite s b, .wrote (Except.ok ()))

theorem btInsert_key_mem {s : EngineBtree} {k v : Bytes} {p : Bytes × Bytes}
    (h : p ∈ btInsert s k v) : p.1 = k ∨ p ∈ s := by
  induction s with
  | nil =>
    simp [btInsert] at h
    subst h; exact Or.inl rfl
  | cons hd tl ih =>
    obtain ⟨k0, v0⟩ := hd
    simp only [btInsert] at h
    by_cases h1 : k < k0
    · simp only [if_pos h1, List.mem_cons] at h
      rcases h with h | h | h
      · subst h; exact Or.inl rfl
      · exact Or.inr (by simp [h])
      · exact Or.inr (List.mem_cons_of_mem _ h)
    · by_cases h2 : k = k0
      · simp only [if_neg h1, if_pos h2, List.mem_cons] at h
        rcases h with h | h
        · subst h; exact Or.inl rfl
        · exact Or.inr (List.mem_cons_of_mem _ h)
      · simp only [if_neg h1, if_neg h2, List.mem_cons] at h
        rcases h with h | h
        · exact Or.inr (by simp [h])
        · rcases ih h with h | h
          · exact Or.inl h
          · exact Or.inr (List.mem_cons_of_mem _ h)

theorem btInsert_sorted {s : EngineBtree} (k v : Bytes) (h : BtSorted s) :
    BtSorted (btInsert s k v) := by
  induction s with
  | nil => simp [btInsert, BtSorted]
  | cons hd tl ih =>
    obtain ⟨k0, v0⟩ := hd
    rw [BtSorted, List.pairwise_cons] at h
    obtain ⟨hhd, htl⟩ := h
    simp only [btInsert]
    by_cases h1 : k < k0
    · rw [if_pos h1]
      rw [BtSorted, List.pairwise_cons]
      constructor
      · intro b hb
        rcases List.mem_cons.mp hb with hb | hb
        · subst hb; exact h1
        · exact lt_trans h1 (hhd b hb)
      · exact List.pairwise_cons.mpr ⟨hhd, htl⟩
    · by_cases h2 : k = k0
      · rw [if_neg h1, if_pos h2]
        rw [BtSorted, List.pairwise_cons]
        exact ⟨fun b hb => h2 ▸ hhd b hb, htl⟩
      · rw [if_neg h1, if_neg h2]
        rw [BtSorted, List.pairwise_cons]
        constructor
        · intro b hb
          rcases btInsert_key_mem hb with hb | hb
          · rw [hb]
            exact lt_of_le_of_ne (not_lt.mp h1) (fun e => h2 e.symm)
          · exact hhd b hb
        · exact ih htl

theorem btErase_sublist (s : EngineBtree) (k : Bytes) :
    List.Sublist (btErase s k) s := by
  induction s with
  | nil => simp [btErase]
  | cons hd tl ih =>
    obtain ⟨k0, v0⟩ := hd
    simp only [btErase]
    by_cases h : k = k0
    · rw [if_pos h]
      exact List.sublist_cons_self _ _
    · rw [if_neg h]
      exact List.Sublist.cons₂ _ ih

theorem btErase_sorted {s : EngineBtree} (k : Bytes) (h : BtSorted s) :
    BtSorted (btErase s k) :=
  List.Pairwise.sublist (btErase_sublist s k) h

theorem btApply_sorted {s : EngineBtree} (m : Modify) (h : BtSorted s) :
    BtSorted (btApply s m) := by
  cases m with
  | Put kv => obtain ⟨k, v⟩ := kv; exact btInsert_sorted k v h
  | Delete k => exact btErase_sorted k h

theorem btWrite_sorted {s : EngineBtree} (b : List Modify) (h : BtSorted s) :
    BtSorted (btWrite s b) := by
  induction b generalizing s with
  | nil => exact h
  | cons m rest ih => exact ih (btApply_sorted m h)

theorem btGet_insert (s : EngineBtree) (k v q : Bytes) :
    btGet (btInsert s k v) q = if q = k then some v else btGet s q := by
  induction s with
  | nil =>
    simp only [btInsert, btGet]
  | cons hd tl ih =>
    obtain ⟨k0, v0⟩ := hd
    simp only [btInsert]
    by_cases h1 : k < k0
    · rw [if_pos h1]
      by_cases hq : q = k
      · simp [btGet, hq]
      · simp [btGet, hq]
    · by_cases h2 : k = k0
      · rw [if_neg h1, if_pos h2]
        by_cases hq : q = k
        · simp [btGet, hq]
        · subst h2
          simp [btGet, hq]
      · rw [if_neg h1, if_neg h2]
        by_cases hq : q = k0
        · have hqk : ¬ q = k := by
            intro e; exact h2 (e ▸ hq)
          have hk0 : ¬ k0 = k := fun e => h2 e.symm
          simp [btGet, hq, hqk, hk0]
        · simp only [btGet, if_neg hq, ih]

theorem btGet_mem {s : EngineBtree} {q v : Bytes} (h : btGet s q = some v) :
    (q, v) ∈ s := by
  induction s with
  | nil => simp [btGet] at h
  | cons hd tl ih =>
    obtain ⟨k0, v0⟩ := hd
    simp only [btGet] at h
    by_cases hq : q = k0
    · rw [if_pos hq] at h
      subst hq
      simp [Option.some.injEq] at h
      simp [h]
    · rw [if_neg hq] at h
      exact List.mem_cons_of_mem _ (ih h)

theorem btGet_eq_none {s : EngineBtree} {q : Bytes}
    (h : ∀ p ∈ s, q ≠ p.1) : btGet s q = none := by
  induction s with
  | nil => rfl
  | cons hd tl ih =>
    obtain ⟨k0, v0⟩ := hd
    have hq : q ≠ k0 := h (k0, v0) (List.mem_cons_self _ _)
    simp only [btGet, if_neg hq]
    exact ih (fun p hp => h p (List.mem_cons_of_mem _ hp))

theorem btGet_erase {s : EngineBtree} (hs : BtSorted s) (k q : Bytes) :
    btGet (btErase s k) q = if q = k then none else btGet s q := by
  induction s with
  | nil => simp [btErase, btGet]
  | cons hd tl ih =>
    obtain ⟨k0, v0⟩ := hd
    rw [BtSorted, List.pairwise_cons] at hs
    obtain ⟨hhd, htl⟩ := hs
    simp only [btErase]
    by_cases h1 : k = k0
    · rw [if_pos h1]
      by_cases hq : q = k
      · rw [if_pos hq]
        subst hq; subst h1
        exact btGet_eq_none (fun p hp => ne_of_lt (hhd p hp))
      · rw [if_neg hq]
        have hq0 : ¬ q = k0 := fun e => hq (h1 ▸ e)
        simp [btGet, hq0]
    · rw [if_neg h1]
      by_cases hq : q = k0
      · have hqk : ¬ q = k := fun e => h1 (e ▸ hq)
        have hk0 : ¬ k0 = k := fun e => h1 e.symm
        simp [btGet, hq, hqk, hk0]
      · simp only [btGet, if_neg hq, ih htl]

theorem btErase_of_get_none {s : EngineBtree} {k : Bytes}
    (h : btGet s k = none) : btErase s k = s := by
  induction s with
  | nil => rfl
  | cons hd tl ih =>
    obtain ⟨k0, v0⟩ := hd
    simp only [btGet] at h
    by_cases hq : k = k0
    · rw [if_pos hq] at h; exact absurd h (by simp)
    · rw [if_neg hq] at h
      simp only [btErase, if_neg hq, ih h]

end TikvEngine

namespace TikvEngine

/-- C1: seek(k) returns the lexicographically smallest stored key ≥ k with
its value (the returned key is ≥ k, it is stored with exactly that value,
and every stored key ≥ k is ≥ it); seek returns absence only when no
stored key is ≥ k; and when k itself is stored, seek(k) returns k with its
value. -/
theorem seek_returns_smallest_key_geq (s : EngineBtree) (k k' v : Bytes)
    (p : Bytes × Bytes) (hs : BtSorted s) :
    (btSeek s k = some (k', v) →
      k ≤ k' ∧ btGet s k' = some v ∧ (p ∈ s → k ≤ p.1 → k' ≤ p.1)) ∧
    (btSeek s k = none → p ∈ s → ¬ k ≤ p.1) ∧
    (btGet s k = some v → btSeek s k = some (k, v)) := by
  induction s with
  | nil =>
    refine ⟨?_, ?_, ?_⟩
    · intro h; exact absurd h (by simp [btSeek])
    · intro _ hp; exact absurd hp (by simp)
    · intro h; exact absurd h (by simp [btGet])
  | cons hd tl ih =>
    obtain ⟨k0, v0⟩ := hd
    rw [BtSorted, List.pairwise_cons] at hs
    obtain ⟨hhd, htl⟩ := hs
    have ihr := ih htl
    refine ⟨?_, ?_, ?_⟩
    · intro h
      simp only [btSeek] at h
      by_cases hk : k ≤ k0
      · rw [if_pos hk] at h
        simp only [Option.some.injEq, Prod.mk.injEq] at h
        obtain ⟨h1, h2⟩ := h
        subst h1; subst h2
        refine ⟨hk, by simp [btGet], ?_⟩
        intro hp _
        rcases List.mem_cons.mp hp with hp | hp
        · rw [hp]
        · exact le_of_lt (hhd p hp)
      · rw [if_neg hk] at h
        obtain ⟨ha, hb, hc⟩ := ihr.1 h
        have hne : ¬ k' = k0 := by
          intro e; exact hk (e ▸ ha)
        refine ⟨ha, by simp [btGet, if_neg hne, hb], ?_⟩
        intro hp hkp
        rcases List.mem_cons.mp hp with hp | hp
        · subst hp; exact absurd hkp hk
        · exact hc hp hkp
    · intro h hp
      simp only [btSeek] at h
      by_cases hk : k ≤ k0
      · rw [if_pos hk] at h; exact absurd h (by simp)
      · rw [if_neg hk] at h
        rcases List.mem_cons.mp hp with hp | hp
        · rw [hp]; exact hk
        · exact ihr.2.1 h hp
    · intro h
      simp only [btGet] at h
      by_cases hq : k = k0
      · rw [if_pos hq] at h
        simp only [Option.some.injEq] at h
        subst h
        have hle : k ≤ k0 := le_of_eq hq
        simp [btSeek, if_pos hle, hq]
      · rw [if_neg hq] at h
        have hmem : (k, v) ∈ tl := btGet_mem h
        have hk0 : k0 < k := hhd (k, v) hmem
        have hnk : ¬ k ≤ k0 := not_le.mpr hk0
        simp only [btSeek, if_neg hnk]
        exact ihr.2.2 h

/-- C1 witness: the seek theorem applied to a concrete sorted store and
probe key. -/
theorem seek_returns_smallest_key_geq_witness :
    BtSorted [([1], [10]), ([3], [30])] ∧
    ((btSeek [([1], [10]), ([3], [30])] [2] = some ([3], [30]) →
      [2] ≤ [3] ∧ btGet [([1], [10]), ([3], [30])] [3] = some [30] ∧
        (([3], [30]) ∈ [([1], [10]), ([3], [30])] →
          [2] ≤ ([3], ([30] : Bytes)).1 → [3] ≤ ([3], ([30] : Bytes)).1)) ∧
    (btSeek [([1], [10]), ([3], [30])] [2] = none →
      (([3], [30]) ∈ [([1], [10]), ([3], [30])] →
        ¬ [2] ≤ ([3], ([30] : Bytes)).1)) ∧
    (btGet [([1], [10]), ([3], [30])] [2] = some [30] →
      btSeek [([1], [10]), ([3], [30])] [2] = some ([2], [30]))) :=
  ⟨by decide,
   seek_returns_smallest_key_geq [([1], [10]), ([3], [30])] [2] [3] [30]
     ([3], [30]) (by decide)⟩

/-- C2: write applies the batch in sequence order, and the key's final
state is determined by the descriptor latest in sequence order targeting
it — a later Put leaves its value, a later Delete leaves absence,
regardless of the kinds of earlier descriptors on the same key — while a
key targeted by no descriptor keeps its previous state. -/
theorem write_last_descriptor_wins (s : EngineBtree) (batch : List Modify)
    (k : Bytes) (hs : BtSorted s) :
    btGet (btWrite s batch) k =
      (match lastTouch k batch with
       | some (.Put (_, v)) => some v
       | some (.Delete _) => none
       | none => btGet s k) := by
  induction batch generalizing s with
  | nil => rfl
  | cons m rest ih =>
    have hstep : btWrite s (m :: rest) = btWrite (btApply s m) rest := rfl
    rw [hstep, ih (btApply s m) (btApply_sorted m hs)]
    simp only [lastTouch]
    cases hlt : lastTouch k rest with
    | some m0 =>
      cases m0 with
      | Put kv => obtain ⟨a, b⟩ := kv; rfl
      | Delete a => rfl
    | none =>
      cases m with
      | Put kv =>
        obtain ⟨k1, v1⟩ := kv
        simp only [Modify.key, btApply, btGet_insert]
        by_cases he : k1 = k
        · simp [he]
        · have hke : ¬ k = k1 := fun e => he e.symm
          simp [he, hke]
      | Delete k1 =>
        simp only [Modify.key, btApply, btGet_erase hs]
        by_cases he : k1 = k
        · simp [he]
        · have hke : ¬ k = k1 := fun e => he e.symm
          simp [he, hke]

/-- C2 witness: a batch putting then deleting the same key leaves the key
absent (the later Delete wins over the earlier Put). -/
theorem write_last_descriptor_wins_witness :
    BtSorted [] ∧
    btGet (btWrite [] [Modify.Put ([1], [5]), Modify.Delete [1]]) [1] =
      (match lastTouch [1] [Modify.Put ([1], [5]), Modify.Delete [1]] with
       | some (.Put (_, v)) => some v
       | some (.Delete _) => none
       | none => btGet [] [1]) :=
  ⟨by decide,
   write_last_descriptor_wins [] [Modify.Put ([1], [5]), Modify.Delete [1]]
     [1] (by decide)⟩

theorem btApply_agrees {s : EngineBtree} {m : RefMap} (hs : BtSorted s)
    (h : ∀ q, btGet s q = m q) (mod : Modify) :
    ∀ q, btGet (btApply s mod) q = refApply m mod q := by
  intro q
  cases mod with
  | Put kv =>
    obtain ⟨k1, v1⟩ := kv
    simp only [btApply, refApply, RefMap.insert, btGet_insert]
    by_cases hq : q = k1 <;> simp [hq, h q]
  | Delete k1 =>
    simp only [btApply, refApply, RefMap.remove, btGet_erase hs]
    by_cases hq : q = k1 <;> simp [hq, h q]

theorem btWrite_agrees {s : EngineBtree} {m : RefMap} (hs : BtSorted s)
    (h : ∀ q, btGet s q = m q) (batch : List Modify) :
    ∀ q, btGet (btWrite s batch) q = refWrite m batch q := by
  induction batch generalizing s m with
  | nil => exact h
  | cons mod rest ih =>
    exact ih (btApply_sorted mod hs) (btApply_agrees hs h mod)

theorem btWriteAll_agrees {s : EngineBtree} {m : RefMap} (hs : BtSorted s)
    (h : ∀ q, btGet s q = m q) (batches : List (List Modify)) :
    ∀ q, btGet (btWriteAll s batches) q = refWriteAll m batches q := by
  induction batches generalizing s m with
  | nil => exact h
  | cons b rest ih =>
    exact ih (btWrite_sorted b hs) (btWrite_agrees hs h b)

theorem rocksApply_agrees {db : RocksStore} {m : RefMap}
    (h : ∀ q, rocksGet db q = m q) (mod : Modify) :
    ∀ q, rocksGet (rocksApply db mod) q = refApply m mod q := by
  intro q
  cases mod with
  | Put kv =>
    obtain ⟨k1, v1⟩ := kv
    simp only [rocksApply, refApply, RefMap.insert, rocksGet]
    by_cases hq : q = k1
    · simp [hq]
    · simp only [if_neg hq]; exact h q
  | Delete k1 =>
    simp only [rocksApply, refApply, RefMap.remove, rocksGet]
    by_cases hq : q = k1
    · simp [hq]
    · simp only [if_neg hq]; exact h q

theorem rocksWrite_agrees {db : RocksStore} {m : RefMap}
    (h : ∀ q, rocksGet db q = m q) (batch : List Modify) :
    ∀ q, rocksGet (rocksWrite db batch) q = refWrite m batch q := by
  induction batch generalizing db m with
  | nil => exact h
  | cons mod rest ih => exact ih (rocksApply_agrees h mod)

theorem rocksWriteAll_agrees {db : RocksStore} {m : RefMap}
    (h : ∀ q, rocksGet db q = m q) (batches : List (List Modify)) :
    ∀ q, rocksGet (rocksWriteAll db batches) q = refWriteAll m batches q := by
  induction batches generalizing db m with
  | nil => exact h
  | cons b rest ih => exact ih (rocksWrite_agrees h b)

/-- C3: for every finite sequence of Put/Delete batches applied via write
to a freshly constructed engine, the key-to-value mapping observable
through get equals the fold of the same batches over the reference
associative map (Put as insert/overwrite, Delete as remove), for both the
in-memory and the persistent backend. -/
theorem fresh_engine_write_refines_ref_map (batches : List (List Modify))
    (k : Bytes) :
    btGet (btWriteAll EngineBtree.new batches) k =
      refWriteAll RefMap.empty batches k ∧
    rocksGet (rocksWriteAll RocksStore.fresh batches) k =
      refWriteAll RefMap.empty batches k := by
  constructor
  · exact btWriteAll_agrees (List.Pairwise.nil) (fun _ => rfl) batches k
  · exact rocksWriteAll_agrees (fun _ => rfl) batches k

/-- C4: put(k, v) is exactly write of the single-element batch
[Put((k, v))] and delete(k) is exactly write of [Delete(k)]; the result —
success value or Error Envelope — is returned unchanged; on the in-memory
backend these amount to a single upsert or a single removal. -/
theorem put_delete_delegate_to_write (σ : Type) (E : EngineOps σ) (s : σ)
    (t : EngineBtree) (k v : Bytes) :
    E.put s k v = E.write s [Modify.Put (k, v)] ∧
    E.delete s k = E.write s [Modify.Delete k] ∧
    memEngine.put t k v = Except.ok (btInsert t k v) ∧
    memEngine.delete t k = Except.ok (btErase t k) :=
  ⟨rfl, rfl, rfl, rfl⟩

/-- C5: absence is never an error: get on an unstored key succeeds with
Ok(None), seek likewise only ever returns Ok, and delete of an unstored
key succeeds as a no-op leaving the engine state unchanged. -/
theorem absence_is_not_an_error (s : EngineBtree) (k : Bytes)
    (h : btGet s k = none) :
    EngineBtree.get s k = Except.ok none ∧
    memEngine.delete s k = Except.ok s ∧
    EngineBtree.seek s k = Except.ok (btSeek s k) := by
  refine ⟨?_, ?_, rfl⟩
  · rw [EngineBtree.get, h]
  · show Except.ok (btWrite s [Modify.Delete k]) = Except.ok s
    rw [show btWrite s [Modify.Delete k] = btErase s k from rfl,
      btErase_of_get_none h]

/-- C5 witness: on a store holding only key [1], key [3] is absent; get
succeeds with Ok(None) and delete is a successful no-op. -/
theorem absence_is_not_an_error_witness :
    btGet [([1], [2])] [3] = none ∧
    (EngineBtree.get [([1], [2])] [3] = Except.ok none ∧
     memEngine.delete [([1], [2])] [3] = Except.ok [([1], [2])] ∧
     EngineBtree.seek [([1], [2])] [3] =
       Except.ok (btSeek [([1], [2])] [3])) :=
  ⟨by decide, absence_is_not_an_error [([1], [2])] [3] (by decide)⟩

/-- C6: new_engine(Dsn::Memory) always returns Ok with a freshly
constructed in-memory engine; for Dsn::RocksDBPath(path) the result is
Ok(engine) exactly when the persistent constructor returns Ok(engine),
and is an Error Envelope exactly when — and with exactly the error with
which — the persistent constructor fails. -/
theorem new_engine_memory_never_fails
    (rocksNew : String → Except Error EngineRocksdb) (path : String)
    (e : Error) (r : EngineRocksdb) :
    new_engine rocksNew Dsn.Memory =
      Except.ok (BoxedEngine.btree EngineBtree.new) ∧
    (new_engine rocksNew (Dsn.RocksDBPath path) = Except.error e ↔
      rocksNew path = Except.error e) ∧
    (new_engine rocksNew (Dsn.RocksDBPath path) =
        Except.ok (BoxedEngine.rocks r) ↔
      rocksNew path = Except.ok r) := by
  refine ⟨rfl, ?_, ?_⟩
  · cases hr : rocksNew path with
    | ok r0 => simp [new_engine, hr, Except.map]
    | error e0 => simp [new_engine, hr, Except.map]
  · cases hr : rocksNew path with
    | ok r0 =>
      simp [new_engine, hr, Except.map]
    | error e0 => simp [new_engine, hr, Except.map]

/-- C8: get and seek take the engine by shared reference and leave the
engine state — hence the observable key-to-value mapping — unchanged,
while write is the operation that produces the updated state. -/
theorem reads_leave_state_unchanged (s : EngineBtree) (k q : Bytes)
    (b : List Modify) :
    (stepMem s (Op.getOp k)).1 = s ∧
    (stepMem s (Op.seekOp k)).1 = s ∧
    btGet (stepMem s (Op.getOp k)).1 q = btGet s q ∧
    btGet (stepMem s (Op.seekOp k)).1 q = btGet s q ∧
    btSeek (stepMem s (Op.getOp k)).1 q = btSeek s q ∧
    (stepMem s (Op.writeOp b)).1 = btWrite s b :=
  ⟨rfl, rfl, rfl, rfl, rfl, rfl⟩

/-- C10: the PENDING_TASKS initializer unwraps the result of registering
the gauge vector: a successful registration yields the registered gauge,
and a failed registration panics at first access — the failure is neither
surfaced as a value nor swallowed. -/
theorem pending_tasks_unwraps_registration
    (register : String → String → List String → Except Error GaugeVec) :
    PENDING_TASKS register =
      (match register "tikv_worker_pending_task_total"
          "Pending task count of a worker." ["name"] with
       | .ok g => InitResult.value g
       | .error _ => InitResult.panicked) := by
  rw [PENDING_TASKS]
  cases hr : register "tikv_worker_pending_task_total"
      "Pending task count of a worker." ["name"] with
  | ok g => rfl
  | error e => rfl

/-- C7: The Error Envelope is a transparent pass-through over the wrapped
error: display output, description and cause link all delegate to the
wrapped error, and the cause-chain traversal through the envelope yields
exactly what the wrapped error's own traversal yields. -/
theorem error_envelope_transparent (e : BackendError) :
    (Error.Other e).fmt = e.display ∧
    (Error.Other e).description = e.description ∧
    (Error.Other e).cause = e.cause ∧
    (Error.Other e).traverse = e.traverse := by
  refine ⟨rfl, rfl, rfl, ?_⟩
  cases e with
  | mk d desc c =>
    cases c with
    | none => rfl
    | some c0 => rfl

/-- C9: Error::cause on Other(e) returns e's own cause rather than e
itself, so the wrapped error is not a distinct link in the chain; in
particular when e has no cause the envelope reports no cause, and the
envelope's traversal has exactly as many links as e's own. -/
theorem error_cause_skips_wrapped (e : BackendError) (d desc : String) :
    (Error.Other e).cause = e.cause ∧
    (Error.Other (BackendError.mk d desc none)).cause = none ∧
    ((Error.Other e).traverse).length = e.traverse.length := by
  refine ⟨rfl, rfl, ?_⟩
  cases e with
  | mk d0 desc0 c =>
    cases c with
    | none => rfl
    | some c0 => rfl

end TikvEngine
